import Mathlib

/-!
Verification of the Uho sprite-generation scripts.

Shallow embedding of the palette manager, rasterizer primitives and
exporter of src/scripts/legendary-sprite-generator.py together with the
walking-animation offsets of src/scripts/create-enhanced-sprite.py.
Python integers are modelled as unbounded Int; the one floating-point
computation (the shading light factor) is modelled in exact rational
arithmetic, and the float square root inside the nearest-colour search is
eliminated by comparing squared distances, which gives the same ordering
because the square root is strictly monotone on nonnegative reals.
-/

namespace Uho

/-- RGB triple as stored in a palette. -/
abbrev Color := Int × Int × Int

/-- RGBA pixel as stored in a frame buffer. -/
abbrev Pixel := Int × Int × Int × Int

/-- Channel quantization from add_color: (v >> 3) << 3 in Python, i.e.
floor-divide by 8 then multiply by 8 (Python shifts are floor shifts). -/
def quantChan (v : Int) : Int := (Int.fdiv v 8) * 8

/-- Quantization of a full RGB triple to 5 significant bits per channel. -/
def quantize (r g b : Int) : Color := (quantChan r, quantChan g, quantChan b)

/-- RetroColorPalette: a name and an ordered list of stored RGB triples. -/
structure Palette where
  name : String
  colors : List Color

/-- Empty palette as produced by RetroColorPalette.__init__. -/
def emptyPalette (n : String) : Palette := ⟨n, []⟩

/-- Squared Euclidean distance between two RGB triples.  The source
computes the square root of this value; since the square root is strictly
monotone the comparisons in find_closest_color are unchanged. -/
def dist2 (a b : Color) : Int :=
  (a.1 - b.1) * (a.1 - b.1) + (a.2.1 - b.2.1) * (a.2.1 - b.2.1)
    + (a.2.2 - b.2.2) * (a.2.2 - b.2.2)

/-- Loop of find_closest_color: walks the colour list keeping the best
(strictly smaller) distance seen so far together with its index; the
initial best distance is infinity, modelled as none. -/
def fccLoop (t : Color) : List Color → Nat → Option Int → Nat → Nat
  | [], _, _, ci => ci
  | c :: rest, i, md, ci =>
    if (match md with | none => true | some m => decide (dist2 t c < m)) then
      fccLoop t rest (i + 1) (some (dist2 t c)) i
    else
      fccLoop t rest (i + 1) md ci

/-- RetroColorPalette.find_closest_color. -/
def findClosestColor (p : Palette) (r g b : Int) : Nat :=
  fccLoop (r, g, b) p.colors 0 none 0

/-- Index of the first occurrence of a colour in a list, as computed by
Python list.index on a present element. -/
def indexOfColor : List Color → Color → Nat
  | [], _ => 0
  | c :: rest, t => if c = t then 0 else indexOfColor rest t + 1

/-- RetroColorPalette.add_color: quantizes the channels, deduplicates,
appends while fewer than 16 colours are stored, and falls back to the
nearest stored colour once full.  Returns the index and the new palette
state (the Python method mutates the palette and returns the index). -/
def addColor (p : Palette) (r g b : Int) : Nat × Palette :=
  let color := quantize r g b
  if color ∈ p.colors then
    (indexOfColor p.colors color, p)
  else if p.colors.length < 16 then
    let p' : Palette := ⟨p.name, p.colors ++ [color]⟩
    (indexOfColor p'.colors color, p')
  else
    (findClosestColor p color.1 color.2.1 color.2.2, p)

/-- Sequence of add_color calls applied in order. -/
def applyCalls (p : Palette) (cs : List (Int × Int × Int)) : Palette :=
  cs.foldl (fun q c => (addColor q c.1 c.2.1 c.2.2).2) p

/-- Frame buffer: a numpy array of shape (height, width, 4).  The pixel
data is a total function on Int coordinates, written data y x in the
numpy row-major order frame[y, x]; only coordinates inside the
[0,height)x[0,width) window are ever written. -/
structure Frame where
  width : Nat
  height : Nat
  data : Int → Int → Pixel

/-- LegendarySpriteGenerator.set_pixel_safe: writes pixel (x,y) only when
0 <= x < width and 0 <= y < height, otherwise leaves the frame alone. -/
def setPixelSafe (fr : Frame) (x y : Int) (px : Pixel) : Frame :=
  if 0 ≤ x ∧ x < (fr.width : Int) ∧ 0 ≤ y ∧ y < (fr.height : Int) then
    { fr with data := fun b a => if b = y ∧ a = x then px else fr.data b a }
  else fr

/-- Half-open integer interval [lo, hi) as a list, mirroring Python
range(lo, hi). -/
def intRange (lo hi : Int) : List Int :=
  (List.range (hi - lo).toNat).map (fun (i : Nat) => lo + (i : Int))

/-- Body of one rasterizer loop iteration: if the guard holds at (x,y),
write the colour chosen for (x,y) through set_pixel_safe. -/
def paintStep (g : Int → Int → Bool) (c : Int → Int → Pixel) (y : Int)
    (fr : Frame) (x : Int) : Frame :=
  if g x y then setPixelSafe fr x y (c x y) else fr

/-- Nested rasterizer loops: outer loop over row coordinates ys, inner
loop over column coordinates xs, painting each guarded pixel. -/
def paintFold (g : Int → Int → Bool) (c : Int → Int → Pixel)
    (xs ys : List Int) (fr : Frame) : Frame :=
  ys.foldl (fun f y => xs.foldl (paintStep g c y) f) fr

theorem setPixelSafe_width (fr : Frame) (x y : Int) (px : Pixel) :
    (setPixelSafe fr x y px).width = fr.width := by
  unfold setPixelSafe; split <;> rfl

theorem setPixelSafe_height (fr : Frame) (x y : Int) (px : Pixel) :
    (setPixelSafe fr x y px).height = fr.height := by
  unfold setPixelSafe; split <;> rfl

theorem paintStep_width (g : Int → Int → Bool) (c : Int → Int → Pixel)
    (y : Int) (fr : Frame) (x : Int) :
    (paintStep g c y fr x).width = fr.width := by
  unfold paintStep; split
  · exact setPixelSafe_width fr x y (c x y)
  · rfl

theorem paintStep_height (g : Int → Int → Bool) (c : Int → Int → Pixel)
    (y : Int) (fr : Frame) (x : Int) :
    (paintStep g c y fr x).height = fr.height := by
  unfold paintStep; split
  · exact setPixelSafe_height fr x y (c x y)
  · rfl

theorem paintRow_width (g : Int → Int → Bool) (c : Int → Int → Pixel)
    (y : Int) (xs : List Int) (fr : Frame) :
    (xs.foldl (paintStep g c y) fr).width = fr.width := by
  induction xs generalizing fr with
  | nil => rfl
  | cons x xs ih =>
    simp only [List.foldl_cons]
    rw [ih, paintStep_width]

theorem paintRow_height (g : Int → Int → Bool) (c : Int → Int → Pixel)
    (y : Int) (xs : List Int) (fr : Frame) :
    (xs.foldl (paintStep g c y) fr).height = fr.height := by
  induction xs generalizing fr with
  | nil => rfl
  | cons x xs ih =>
    simp only [List.foldl_cons]
    rw [ih, paintStep_height]

theorem paintFold_width (g : Int → Int → Bool) (c : Int → Int → Pixel)
    (xs ys : List Int) (fr : Frame) :
    (paintFold g c xs ys fr).width = fr.width := by
  unfold paintFold
  induction ys generalizing fr with
  | nil => rfl
  | cons y ys ih =>
    simp only [List.foldl_cons]
    rw [ih, paintRow_width]

theorem paintFold_height (g : Int → Int → Bool) (c : Int → Int → Pixel)
    (xs ys : List Int) (fr : Frame) :
    (paintFold g c xs ys fr).height = fr.height := by
  unfold paintFold
  induction ys generalizing fr with
  | nil => rfl
  | cons y ys ih =>
    simp only [List.foldl_cons]
    rw [ih, paintRow_height]

theorem paintStep_data (g : Int → Int → Bool) (c : Int → Int → Pixel)
    (y0 : Int) (fr : Frame) (x b a : Int) :
    (paintStep g c y0 fr x).data b a =
      if a = x ∧ b = y0 ∧ g x y0 = true ∧
          0 ≤ x ∧ x < (fr.width : Int) ∧ 0 ≤ y0 ∧ y0 < (fr.height : Int) then
        c x y0
      else fr.data b a := by
  unfold paintStep setPixelSafe
  by_cases hg : g x y0 = true
  · rw [if_pos hg]
    by_cases hbd : 0 ≤ x ∧ x < (fr.width : Int) ∧ 0 ≤ y0 ∧ y0 < (fr.height : Int)
    · rw [if_pos hbd]
      by_cases hax : b = y0 ∧ a = x
      · show (if b = y0 ∧ a = x then c x y0 else fr.data b a) = _
        rw [if_pos hax, if_pos ⟨hax.2, hax.1, hg, hbd⟩]
      · show (if b = y0 ∧ a = x then c x y0 else fr.data b a) = _
        rw [if_neg hax, if_neg (by tauto)]
    · rw [if_neg hbd, if_neg (by tauto)]
  · rw [if_neg hg, if_neg (by tauto)]

/-- Characterization of one row of rasterizer painting: a pixel holds the
painted colour exactly when its column is visited, its row is the painted
row, the guard holds and it lies inside the frame. -/
theorem paintRow_data (g : Int → Int → Bool) (c : Int → Int → Pixel) (y0 : Int)
    (xs : List Int) (fr : Frame) (b a : Int) :
    (xs.foldl (paintStep g c y0) fr).data b a =
      if a ∈ xs ∧ b = y0 ∧ g a y0 = true ∧
          0 ≤ a ∧ a < (fr.width : Int) ∧ 0 ≤ y0 ∧ y0 < (fr.height : Int) then
        c a y0
      else fr.data b a := by
  induction xs generalizing fr with
  | nil => simp
  | cons x xs ih =>
    simp only [List.foldl_cons]
    rw [ih, paintStep_width, paintStep_height, paintStep_data]
    by_cases hx : a = x
    · subst hx
      simp only [List.mem_cons, true_or, true_and]
      split_ifs <;> tauto
    · simp only [List.mem_cons, hx, false_or, false_and, if_false]

/-- Characterization of the nested rasterizer loops: a pixel holds the
painted colour exactly when its coordinates are visited by both loops, the
guard holds there and it lies inside the frame; all other pixels keep
their previous value. -/
theorem paintFold_data (g : Int → Int → Bool) (c : Int → Int → Pixel)
    (xs ys : List Int) (fr : Frame) (b a : Int) :
    (paintFold g c xs ys fr).data b a =
      if a ∈ xs ∧ b ∈ ys ∧ g a b = true ∧
          0 ≤ a ∧ a < (fr.width : Int) ∧ 0 ≤ b ∧ b < (fr.height : Int) then
        c a b
      else fr.data b a := by
  unfold paintFold
  induction ys generalizing fr with
  | nil => simp
  | cons y ys ih =>
    simp only [List.foldl_cons]
    rw [ih, paintRow_width, paintRow_height, paintRow_data]
    by_cases hy : b = y
    · subst hy
      simp only [List.mem_cons, true_or, true_and]
      split_ifs <;> tauto
    · simp only [List.mem_cons, hy, false_or, false_and, and_false, if_false]

/-- Membership in an integer range is the pair of interval bounds. -/
theorem mem_intRange (lo hi a : Int) : a ∈ intRange lo hi ↔ lo ≤ a ∧ a < hi := by
  unfold intRange
  constructor
  · intro h
    obtain ⟨i, hi', rfl⟩ := List.mem_map.1 h
    have hilt := List.mem_range.1 hi'
    omega
  · intro h
    exact List.mem_map.2 ⟨(a - lo).toNat, List.mem_range.2 (by omega), by omega⟩

/-- Default colour used to totalize palette lookups; every lookup done by
the scripts uses an index produced by add_color, which is in range. -/
def defaultColor : Color := (0, 0, 0)

/-- Pixel written by set_pixel_safe for an RGB colour with the default
alpha of 255. -/
def pixelOf (c : Color) : Pixel := (c.1, c.2.1, c.2.2, 255)

/-- Shading classification inside draw_circle_with_shading: the light
factor (-dx - dy) / (radius * 2) selects highlight above 0.3, shadow below
-0.3 and the base colour otherwise.  The Python float quotient is
modelled as an exact rational; the source raises ZeroDivisionError on
radius 0, which is outside the domain of the theorems below. -/
def circleShadeIdx (cx cy radius : Int) (base shadow highlight : Nat)
    (x y : Int) : Nat :=
  let dx := x - cx
  let dy := y - cy
  let lf : ℚ := ((-dx - dy : Int) : ℚ) / ((radius * 2 : Int) : ℚ)
  if lf > 3 / 10 then highlight
  else if lf < -(3 / 10) then shadow
  else base

/-- LegendarySpriteGenerator.draw_circle_with_shading: loops over the
clipped bounding box of the circle and paints every pixel with squared
distance at most radius^2, three-toned by circleShadeIdx. -/
def drawCircleWithShading (fr : Frame) (pal : Palette) (cx cy radius : Int)
    (base shadow highlight : Nat) : Frame :=
  paintFold
    (fun x y => decide ((x - cx) * (x - cx) + (y - cy) * (y - cy) ≤ radius * radius))
    (fun x y =>
      pixelOf (pal.colors.getD (circleShadeIdx cx cy radius base shadow highlight x y)
        defaultColor))
    (intRange (max 0 (cx - radius)) (min (fr.width : Int) (cx + radius + 1)))
    (intRange (max 0 (cy - radius)) (min (fr.height : Int) (cy + radius + 1)))
    fr

/-- Edge classification inside draw_rect_with_shading: top or left edge
pixels take the highlight colour, then bottom or right edge pixels the
shadow colour, interior pixels the base colour. -/
def rectShadeIdx (x y width height : Int) (base shadow highlight : Nat)
    (px py : Int) : Nat :=
  if px = x ∨ py = y then highlight
  else if px = x + width - 1 ∨ py = y + height - 1 then shadow
  else base

/-- LegendarySpriteGenerator.draw_rect_with_shading. -/
def drawRectWithShading (fr : Frame) (pal : Palette) (x y width height : Int)
    (base shadow highlight : Nat) : Frame :=
  paintFold (fun _ _ => true)
    (fun px py =>
      pixelOf (pal.colors.getD (rectShadeIdx x y width height base shadow highlight px py)
        defaultColor))
    (intRange x (min (fr.width : Int) (x + width)))
    (intRange y (min (fr.height : Int) (y + height)))
    fr

/-- Mortar-line condition of draw_brick_wall with Python operator
precedence: and binds tighter than or, and the row-boundary test stands
alone. -/
def brickMortar (x y : Int) : Prop :=
  y % 4 = 3 ∨ ((y / 4) % 2 = 0 ∧ x % 8 = 7) ∨ ((y / 4) % 2 = 1 ∧ x % 8 = 3)

instance (x y : Int) : Decidable (brickMortar x y) := by
  unfold brickMortar; infer_instance

/-- Brick-highlight condition of draw_brick_wall. -/
def brickHighlight (x y : Int) : Prop :=
  (x % 8 = 0 ∧ (y / 4) % 2 = 0) ∨ (x % 8 = 4 ∧ (y / 4) % 2 = 1)

instance (x y : Int) : Decidable (brickHighlight x y) := by
  unfold brickHighlight; infer_instance

/-- Per-pixel colour of the brick-wall tile. -/
def brickPixel (baseC darkC lightC : Color) (x y : Int) : Pixel :=
  if brickMortar x y then pixelOf darkC
  else if brickHighlight x y then pixelOf lightC
  else pixelOf baseC

/-- LegendarySpriteGenerator.draw_brick_wall: resolves the three palette
indices to colours, then paints all of [0,16) x [0,16). -/
def drawBrickWall (fr : Frame) (pal : Palette) (base dark light : Nat) : Frame :=
  let baseC := pal.colors.getD base defaultColor
  let darkC := pal.colors.getD dark defaultColor
  let lightC := pal.colors.getD light defaultColor
  paintFold (fun _ _ => true) (fun x y => brickPixel baseC darkC lightC x y)
    (intRange 0 16) (intRange 0 16) fr

/-- Walking offset of create_enhanced_player_sprite in the legendary
generator: -1 on frame 1, +1 on frame 3, 0 otherwise. -/
def walkOffset (frameIdx : Nat) : Int :=
  if frameIdx = 1 then -1 else if frameIdx = 3 then 1 else 0

/-- Left leg row in draw_legendary_character: legs_y + walk_offset with
legs_y = 11. -/
def leftLegY (frameIdx : Nat) : Int := 11 + walkOffset frameIdx

/-- Right leg row in draw_legendary_character: legs_y - walk_offset. -/
def rightLegY (frameIdx : Nat) : Int := 11 - walkOffset frameIdx

/-- Walking flag of create-enhanced-sprite.py: frames 1 and 3 walk. -/
def isWalking (frameIdx : Nat) : Bool := decide (frameIdx = 1 ∨ frameIdx = 3)

/-- Leg offset of create-enhanced-sprite.py: +1 on frame 1, -1 on frame 3,
0 otherwise. -/
def legOffset (frameIdx : Nat) : Int :=
  if frameIdx = 1 then 1 else if frameIdx = 3 then -1 else 0

/-- Left-leg vertical offset from the neutral stance in
create-enhanced-sprite.py: leg_offset when walking, 0 otherwise. -/
def enhancedLeftOff (frameIdx : Nat) : Int :=
  if isWalking frameIdx then legOffset frameIdx else 0

/-- Right-leg vertical offset from the neutral stance in
create-enhanced-sprite.py: -leg_offset when walking, 0 otherwise. -/
def enhancedRightOff (frameIdx : Nat) : Int :=
  if isWalking frameIdx then -legOffset frameIdx else 0

/-- Concrete 16x16 all-transparent frame used by the witnesses. -/
def testFrame : Frame := ⟨16, 16, fun _ _ => (0, 0, 0, 0)⟩

/-- Concrete three-colour palette used by the witnesses (the quantized
brick colours of create_urban_tileset). -/
def testPal : Palette := ⟨"test", [(176, 96, 80), (136, 64, 48), (216, 136, 120)]⟩

/-- C4: a set_pixel_safe call at coordinates outside [0,width) x
[0,height) leaves the frame buffer completely unmodified (and raises
nothing, the operation being total), while an in-range call writes
exactly the one pixel (x,y) and leaves every other pixel and the frame
dimensions unchanged. -/
theorem set_pixel_safe_bounds (fr : Frame) (x y : Int) (px : Pixel) :
    (¬(0 ≤ x ∧ x < (fr.width : Int) ∧ 0 ≤ y ∧ y < (fr.height : Int)) →
      setPixelSafe fr x y px = fr) ∧
    ((0 ≤ x ∧ x < (fr.width : Int) ∧ 0 ≤ y ∧ y < (fr.height : Int)) →
      (setPixelSafe fr x y px).data y x = px ∧
      (∀ b a : Int, ¬(b = y ∧ a = x) → (setPixelSafe fr x y px).data b a = fr.data b a) ∧
      (setPixelSafe fr x y px).width = fr.width ∧
      (setPixelSafe fr x y px).height = fr.height) := by
  constructor
  · intro h
    unfold setPixelSafe
    rw [if_neg h]
  · intro h
    refine ⟨?_, ?_, setPixelSafe_width fr x y px, setPixelSafe_height fr x y px⟩
    · unfold setPixelSafe
      rw [if_pos h]
      exact if_pos ⟨rfl, rfl⟩
    · intro b a hba
      unfold setPixelSafe
      rw [if_pos h]
      exact if_neg hba

/-- Witness for C4 at a concrete frame: the write at x = 20 is ignored
and the write at (5,3) lands at exactly that pixel. -/
theorem set_pixel_safe_bounds_witness :
    ¬((0:Int) ≤ 20 ∧ (20:Int) < (testFrame.width : Int) ∧ (0:Int) ≤ 3 ∧
        (3:Int) < (testFrame.height : Int)) ∧
    setPixelSafe testFrame 20 3 (1, 2, 3, 255) = testFrame ∧
    (setPixelSafe testFrame 5 3 (1, 2, 3, 255)).data 3 5 = (1, 2, 3, 255) ∧
    (setPixelSafe testFrame 5 3 (1, 2, 3, 255)).data 3 6 = testFrame.data 3 6 := by
  have h1 := set_pixel_safe_bounds testFrame 20 3 (1, 2, 3, 255)
  have h2 := set_pixel_safe_bounds testFrame 5 3 (1, 2, 3, 255)
  refine ⟨by decide, h1.1 (by decide), ?_, ?_⟩
  · exact (h2.2 (by decide)).1
  · exact (h2.2 (by decide)).2.1 3 6 (by decide)

/-- C5: in both generators the walking offset across frame indices
0,1,2,3 is the pattern 0, -1, 0, +1 (taken by the legendary generator's
walk_offset directly and by the enhanced generator's right leg), frames 0
and 2 are the neutral stance, and on frames 1 and 3 the two legs shift by
one pixel in opposite directions; the offsets do not depend on the
direction tag. -/
theorem walking_offset_pattern :
    (walkOffset 0 = 0 ∧ walkOffset 1 = -1 ∧ walkOffset 2 = 0 ∧ walkOffset 3 = 1) ∧
    (∀ f : Fin 4, leftLegY f.val = 11 + walkOffset f.val ∧
      rightLegY f.val = 11 - walkOffset f.val) ∧
    (leftLegY 0 = 11 ∧ rightLegY 0 = 11 ∧ leftLegY 2 = 11 ∧ rightLegY 2 = 11) ∧
    (leftLegY 1 = 11 + (-1) ∧ rightLegY 1 = 11 - (-1) ∧
      leftLegY 3 = 11 + 1 ∧ rightLegY 3 = 11 - 1) ∧
    (enhancedRightOff 0 = 0 ∧ enhancedRightOff 1 = -1 ∧
      enhancedRightOff 2 = 0 ∧ enhancedRightOff 3 = 1) ∧
    (∀ f : Fin 4, enhancedLeftOff f.val = -enhancedRightOff f.val) ∧
    (enhancedLeftOff 0 = 0 ∧ enhancedLeftOff 2 = 0 ∧
      (enhancedLeftOff 1 = 1 ∨ enhancedLeftOff 1 = -1) ∧
      (enhancedLeftOff 3 = 1 ∨ enhancedLeftOff 3 = -1)) := by
  decide

/-- C7: inside draw_rect_with_shading every painted pixel on the top or
left edge receives the highlight colour, every remaining painted pixel on
the bottom or right edge receives the shadow colour, and every interior
pixel receives the base colour. -/
theorem draw_rect_with_shading_bevel (fr : Frame) (pal : Palette)
    (x y width height : Int) (base shadow highlight : Nat) (px py : Int)
    (hx1 : x ≤ px) (hx2 : px < x + width) (hx0 : 0 ≤ px) (hxw : px < (fr.width : Int))
    (hy1 : y ≤ py) (hy2 : py < y + height) (hy0 : 0 ≤ py) (hyh : py < (fr.height : Int)) :
    ((px = x ∨ py = y) →
      (drawRectWithShading fr pal x y width height base shadow highlight).data py px
        = pixelOf (pal.colors.getD highlight defaultColor)) ∧
    (¬(px = x ∨ py = y) → (px = x + width - 1 ∨ py = y + height - 1) →
      (drawRectWithShading fr pal x y width height base shadow highlight).data py px
        = pixelOf (pal.colors.getD shadow defaultColor)) ∧
    (¬(px = x ∨ py = y) → ¬(px = x + width - 1 ∨ py = y + height - 1) →
      (drawRectWithShading fr pal x y width height base shadow highlight).data py px
        = pixelOf (pal.colors.getD base defaultColor)) := by
  have hx' : px ∈ intRange x (min (fr.width : Int) (x + width)) :=
    (mem_intRange _ _ _).2 ⟨hx1, lt_min_iff.2 ⟨hxw, hx2⟩⟩
  have hy' : py ∈ intRange y (min (fr.height : Int) (y + height)) :=
    (mem_intRange _ _ _).2 ⟨hy1, lt_min_iff.2 ⟨hyh, hy2⟩⟩
  have hmain : (drawRectWithShading fr pal x y width height base shadow highlight).data py px
      = pixelOf (pal.colors.getD
          (rectShadeIdx x y width height base shadow highlight px py) defaultColor) := by
    unfold drawRectWithShading
    rw [paintFold_data, if_pos ⟨hx', hy', rfl, hx0, hxw, hy0, hyh⟩]
  refine ⟨?_, ?_, ?_⟩
  · intro h1
    rw [hmain]
    unfold rectShadeIdx
    rw [if_pos h1]
  · intro h1 h2
    rw [hmain]
    unfold rectShadeIdx
    rw [if_neg h1, if_pos h2]
  · intro h1 h2
    rw [hmain]
    unfold rectShadeIdx
    rw [if_neg h1, if_neg h2]

/-- Witness for C7 on the jacket rectangle (6,6) size 4x5 of the player
sprite: the top-left corner is highlighted, the bottom-right corner
shadowed and an inner pixel takes the base colour. -/
theorem draw_rect_with_shading_bevel_witness :
    (drawRectWithShading testFrame testPal 6 6 4 5 0 1 2).data 6 6
      = pixelOf (testPal.colors.getD 2 defaultColor) ∧
    (drawRectWithShading testFrame testPal 6 6 4 5 0 1 2).data 10 9
      = pixelOf (testPal.colors.getD 1 defaultColor) ∧
    (drawRectWithShading testFrame testPal 6 6 4 5 0 1 2).data 8 7
      = pixelOf (testPal.colors.getD 0 defaultColor) := by
  have h1 := draw_rect_with_shading_bevel testFrame testPal 6 6 4 5 0 1 2 6 6
    (by decide) (by decide) (by decide) (by decide)
    (by decide) (by decide) (by decide) (by decide)
  have h2 := draw_rect_with_shading_bevel testFrame testPal 6 6 4 5 0 1 2 9 10
    (by decide) (by decide) (by decide) (by decide)
    (by decide) (by decide) (by decide) (by decide)
  have h3 := draw_rect_with_shading_bevel testFrame testPal 6 6 4 5 0 1 2 7 8
    (by decide) (by decide) (by decide) (by decide)
    (by decide) (by decide) (by decide) (by decide)
  exact ⟨h1.1 (Or.inl rfl), h2.2.1 (by decide) (by decide), h3.2.2 (by decide) (by decide)⟩

/-- Adding the fixed alpha 255 to an RGB triple is injective. -/
theorem pixelOf_inj (c c' : Color) : pixelOf c = pixelOf c' ↔ c = c' := by
  rcases c with ⟨r, g, b⟩
  rcases c' with ⟨r', g', b'⟩
  simp [pixelOf, Prod.ext_iff]

/-- C9: in the brick-wall tile a pixel of [0,16) x [0,16) is painted the
dark mortar colour exactly when y mod 4 = 3, or the row block y div 4 is
even and x mod 8 = 7, or the row block is odd and x mod 8 = 3 (the ANDs
binding tighter than the ORs); otherwise it is painted the light colour
exactly when x mod 8 = 0 on an even row block or x mod 8 = 4 on an odd
row block, and the base colour in all remaining cases.  The three tile
colours are assumed pairwise distinct, as they are in
create_urban_tileset. -/
theorem draw_brick_wall_pattern (fr : Frame) (pal : Palette) (base dark light : Nat)
    (hw : fr.width = 16) (hh : fr.height = 16)
    (hbd : pal.colors.getD base defaultColor ≠ pal.colors.getD dark defaultColor)
    (hbl : pal.colors.getD base defaultColor ≠ pal.colors.getD light defaultColor)
    (hdl : pal.colors.getD dark defaultColor ≠ pal.colors.getD light defaultColor)
    (x y : Int) (hx0 : 0 ≤ x) (hx : x < 16) (hy0 : 0 ≤ y) (hy : y < 16) :
    ((drawBrickWall fr pal base dark light).data y x
        = pixelOf (pal.colors.getD dark defaultColor) ↔ brickMortar x y) ∧
    ((drawBrickWall fr pal base dark light).data y x
        = pixelOf (pal.colors.getD light defaultColor) ↔
      ¬brickMortar x y ∧ brickHighlight x y) ∧
    ((drawBrickWall fr pal base dark light).data y x
        = pixelOf (pal.colors.getD base defaultColor) ↔
      ¬brickMortar x y ∧ ¬brickHighlight x y) := by
  have hx' : x ∈ intRange 0 16 := (mem_intRange _ _ _).2 ⟨hx0, hx⟩
  have hy' : y ∈ intRange 0 16 := (mem_intRange _ _ _).2 ⟨hy0, hy⟩
  have hmain : (drawBrickWall fr pal base dark light).data y x
      = brickPixel (pal.colors.getD base defaultColor) (pal.colors.getD dark defaultColor)
          (pal.colors.getD light defaultColor) x y := by
    unfold drawBrickWall
    rw [paintFold_data,
      if_pos ⟨hx', hy', rfl, hx0, by rw [hw]; exact_mod_cast hx, hy0, by rw [hh]; exact_mod_cast hy⟩]
  rw [hmain]
  unfold brickPixel
  by_cases hm : brickMortar x y
  · rw [if_pos hm]
    refine ⟨⟨fun _ => hm, fun _ => rfl⟩, ?_, ?_⟩
    · constructor
      · intro h
        exact absurd ((pixelOf_inj _ _).1 h) hdl
      · intro h
        exact absurd hm h.1
    · constructor
      · intro h
        exact absurd ((pixelOf_inj _ _).1 h) (fun e => hbd e.symm)
      · intro h
        exact absurd hm h.1
  · rw [if_neg hm]
    by_cases hl : brickHighlight x y
    · rw [if_pos hl]
      refine ⟨?_, ⟨fun _ => ⟨hm, hl⟩, fun _ => rfl⟩, ?_⟩
      · constructor
        · intro h
          exact absurd ((pixelOf_inj _ _).1 h) (fun e => hdl e.symm)
        · intro h
          exact absurd h hm
      · constructor
        · intro h
          exact absurd ((pixelOf_inj _ _).1 h) (fun e => hbl e.symm)
        · intro h
          exact absurd hl h.2
    · rw [if_neg hl]
      refine ⟨?_, ?_, ⟨fun _ => ⟨hm, hl⟩, fun _ => rfl⟩⟩
      · constructor
        · intro h
          exact absurd ((pixelOf_inj _ _).1 h) hbd
        · intro h
          exact absurd h hm
      · constructor
        · intro h
          exact absurd ((pixelOf_inj _ _).1 h) hbl
        · intro h
          exact absurd h.2 hl

/-- Witness for C9 at the urban-tileset brick colours: pixel (7,0) lies
on a vertical mortar line of an even row block, pixel (0,0) is a brick
highlight and pixel (1,0) is brick base. -/
theorem draw_brick_wall_pattern_witness :
    ((drawBrickWall testFrame testPal 0 1 2).data 0 7
      = pixelOf (testPal.colors.getD 1 defaultColor) ↔ brickMortar 7 0) ∧
    ((drawBrickWall testFrame testPal 0 1 2).data 0 0
      = pixelOf (testPal.colors.getD 2 defaultColor) ↔
        ¬brickMortar 0 0 ∧ brickHighlight 0 0) ∧
    brickMortar 7 0 ∧ (¬brickMortar 0 0 ∧ brickHighlight 0 0) := by
  have h1 := draw_brick_wall_pattern testFrame testPal 0 1 2 (by decide) (by decide)
    (by decide) (by decide) (by decide) 7 0 (by decide) (by decide) (by decide) (by decide)
  have h2 := draw_brick_wall_pattern testFrame testPal 0 1 2 (by decide) (by decide)
    (by decide) (by decide) (by decide) 0 0 (by decide) (by decide) (by decide) (by decide)
  exact ⟨h1.1, h2.2.1, by decide, by decide⟩

/-- C6: in draw_circle_with_shading every in-bounds pixel whose squared
distance to the centre is at most radius^2 is painted the highlight
colour when the light factor (-dx - dy) / (radius * 2) exceeds 3/10, the
shadow colour when it is below -3/10, and the base colour otherwise;
in-bounds pixels at squared distance greater than radius^2 are left
untouched by the primitive.  The radius is assumed positive: the source
divides by radius * 2 and the only call passes radius 3. -/
theorem draw_circle_with_shading_classify (fr : Frame) (pal : Palette)
    (cx cy radius : Int) (base shadow highlight : Nat) (hr : 0 < radius)
    (x y : Int) (hx0 : 0 ≤ x) (hxw : x < (fr.width : Int))
    (hy0 : 0 ≤ y) (hyh : y < (fr.height : Int)) :
    ((x - cx) * (x - cx) + (y - cy) * (y - cy) ≤ radius * radius →
      ((((-(x - cx) - (y - cy) : Int) : ℚ) / ((radius * 2 : Int) : ℚ) > 3 / 10 →
        (drawCircleWithShading fr pal cx cy radius base shadow highlight).data y x
          = pixelOf (pal.colors.getD highlight defaultColor)) ∧
      (((-(x - cx) - (y - cy) : Int) : ℚ) / ((radius * 2 : Int) : ℚ) < -(3 / 10) →
        (drawCircleWithShading fr pal cx cy radius base shadow highlight).data y x
          = pixelOf (pal.colors.getD shadow defaultColor)) ∧
      (¬(((-(x - cx) - (y - cy) : Int) : ℚ) / ((radius * 2 : Int) : ℚ) > 3 / 10) →
        ¬(((-(x - cx) - (y - cy) : Int) : ℚ) / ((radius * 2 : Int) : ℚ) < -(3 / 10)) →
        (drawCircleWithShading fr pal cx cy radius base shadow highlight).data y x
          = pixelOf (pal.colors.getD base defaultColor)))) ∧
    (radius * radius < (x - cx) * (x - cx) + (y - cy) * (y - cy) →
      (drawCircleWithShading fr pal cx cy radius base shadow highlight).data y x
        = fr.data y x) := by
  constructor
  · intro hin
    have hdx1 : cx - radius ≤ x := by nlinarith [sq_nonneg (x - cx + radius), sq_nonneg (y - cy)]
    have hdx2 : x ≤ cx + radius := by nlinarith [sq_nonneg (x - cx - radius), sq_nonneg (y - cy)]
    have hdy1 : cy - radius ≤ y := by nlinarith [sq_nonneg (y - cy + radius), sq_nonneg (x - cx)]
    have hdy2 : y ≤ cy + radius := by nlinarith [sq_nonneg (y - cy - radius), sq_nonneg (x - cx)]
    have hxmem : x ∈ intRange (max 0 (cx - radius)) (min (fr.width : Int) (cx + radius + 1)) :=
      (mem_intRange _ _ _).2 ⟨max_le_iff.2 ⟨hx0, hdx1⟩, lt_min_iff.2 ⟨hxw, by omega⟩⟩
    have hymem : y ∈ intRange (max 0 (cy - radius)) (min (fr.height : Int) (cy + radius + 1)) :=
      (mem_intRange _ _ _).2 ⟨max_le_iff.2 ⟨hy0, hdy1⟩, lt_min_iff.2 ⟨hyh, by omega⟩⟩
    have hmain : (drawCircleWithShading fr pal cx cy radius base shadow highlight).data y x
        = pixelOf (pal.colors.getD (circleShadeIdx cx cy radius base shadow highlight x y)
            defaultColor) := by
      unfold drawCircleWithShading
      rw [paintFold_data, if_pos ⟨hxmem, hymem, decide_eq_true hin, hx0, hxw, hy0, hyh⟩]
    refine ⟨?_, ?_, ?_⟩
    · intro h1
      rw [hmain]
      simp only [circleShadeIdx]
      rw [if_pos h1]
    · intro h2
      rw [hmain]
      simp only [circleShadeIdx]
      rw [if_neg (by linarith), if_pos h2]
    · intro h1 h2
      rw [hmain]
      simp only [circleShadeIdx]
      rw [if_neg h1, if_neg h2]
  · intro hout
    unfold drawCircleWithShading
    rw [paintFold_data, if_neg (fun h => absurd (of_decide_eq_true h.2.2.1) (not_le.2 hout))]

/-- Witness for C6 on the head circle of the player sprite (centre (8,4),
radius 3): pixel (6,2) is highlighted, pixel (10,6) shadowed, the centre
takes the base colour and pixel (5,1) is outside the disc and untouched. -/
theorem draw_circle_with_shading_classify_witness :
    (drawCircleWithShading testFrame testPal 8 4 3 0 1 2).data 2 6
      = pixelOf (testPal.colors.getD 2 defaultColor) ∧
    (drawCircleWithShading testFrame testPal 8 4 3 0 1 2).data 6 10
      = pixelOf (testPal.colors.getD 1 defaultColor) ∧
    (drawCircleWithShading testFrame testPal 8 4 3 0 1 2).data 4 8
      = pixelOf (testPal.colors.getD 0 defaultColor) ∧
    (drawCircleWithShading testFrame testPal 8 4 3 0 1 2).data 1 5
      = testFrame.data 1 5 := by
  have h1 := draw_circle_with_shading_classify testFrame testPal 8 4 3 0 1 2 (by decide)
    6 2 (by decide) (by decide) (by decide) (by decide)
  have h2 := draw_circle_with_shading_classify testFrame testPal 8 4 3 0 1 2 (by decide)
    10 6 (by decide) (by decide) (by decide) (by decide)
  have h3 := draw_circle_with_shading_classify testFrame testPal 8 4 3 0 1 2 (by decide)
    8 4 (by decide) (by decide) (by decide) (by decide)
  have h4 := draw_circle_with_shading_classify testFrame testPal 8 4 3 0 1 2 (by decide)
    5 1 (by decide) (by decide) (by decide) (by decide)
  exact ⟨(h1.1 (by decide)).1 (by norm_num), (h2.1 (by decide)).2.1 (by norm_num),
    (h3.1 (by decide)).2.2 (by norm_num) (by norm_num), h4.2 (by decide)⟩

/-- Invariant of the find_closest_color loop over the remaining colour
list, for a running best distance m at index ci: either no remaining
colour beats m and the loop returns ci, or the loop returns the absolute
position of the first remaining colour achieving the strict minimum. -/
theorem fccLoop_spec (t : Color) (cs : List Color) :
    ∀ (i ci : Nat) (m : Int),
    (fccLoop t cs i (some m) ci = ci ∧
      ∀ k, k < cs.length → m ≤ dist2 t (cs.getD k defaultColor)) ∨
    (∃ k, k < cs.length ∧ fccLoop t cs i (some m) ci = i + k ∧
      dist2 t (cs.getD k defaultColor) < m ∧
      (∀ j, j < cs.length →
        dist2 t (cs.getD k defaultColor) ≤ dist2 t (cs.getD j defaultColor)) ∧
      (∀ j, j < k →
        dist2 t (cs.getD k defaultColor) < dist2 t (cs.getD j defaultColor))) := by
  induction cs with
  | nil =>
    intro i ci m
    exact Or.inl ⟨rfl, fun k hk => absurd hk (by simp)⟩
  | cons c cs ih =>
    intro i ci m
    by_cases hcm : dist2 t c < m
    · have hstep : fccLoop t (c :: cs) i (some m) ci
          = fccLoop t cs (i + 1) (some (dist2 t c)) i := by
        simp only [fccLoop, hcm, decide_True, if_true]

      rcases ih (i + 1) i (dist2 t c) with ⟨heq, hall⟩ | ⟨k, hk, heq, hlt, hmin, hstrict⟩
      · refine Or.inr ⟨0, by simp, ?_, ?_, ?_, ?_⟩
        · rw [hstep, heq]; omega
        · simpa using hcm
        · intro j hj
          cases j with
          | zero => simp
          | succ j => simpa using hall j (by simpa using hj)
        · intro j hj; omega
      · refine Or.inr ⟨k + 1, by simpa using hk, ?_, ?_, ?_, ?_⟩
        · rw [hstep, heq]; omega
        · simpa using hlt.trans hcm
        · intro j hj
          cases j with
          | zero => simpa using hlt.le
          | succ j => simpa using hmin j (by simpa using hj)
        · intro j hj
          cases j with
          | zero => simpa using hlt
          | succ j => simpa using hstrict j (by omega)
    · have hstep : fccLoop t (c :: cs) i (some m) ci
          = fccLoop t cs (i + 1) (some m) ci := by
        simp only [fccLoop, hcm, decide_False, Bool.false_eq_true, if_false]
      rcases ih (i + 1) ci m with ⟨heq, hall⟩ | ⟨k, hk, heq, hlt, hmin, hstrict⟩
      · refine Or.inl ⟨by rw [hstep, heq], ?_⟩
        intro k hk
        cases k with
        | zero => simpa using not_lt.1 hcm
        | succ k => simpa using hall k (by simpa using hk)
      · refine Or.inr ⟨k + 1, by simpa using hk, ?_, ?_, ?_, ?_⟩
        · rw [hstep, heq]; omega
        · simpa using hlt
        · intro j hj
          cases j with
          | zero => simpa using hlt.le.trans (not_lt.1 hcm)
          | succ j => simpa using hmin j (by simpa using hj)
        · intro j hj
          cases j with
          | zero => simpa using lt_of_lt_of_le hlt (not_lt.1 hcm)
          | succ j => simpa using hstrict j (by omega)

theorem fccLoop_cons_start (t : Color) (c : Color) (cs : List Color) :
    fccLoop t (c :: cs) 0 none 0 = fccLoop t cs 1 (some (dist2 t c)) 0 := rfl

/-- Specification of the find_closest_color loop started as in the
source, with infinite initial best distance: on a nonempty list it
returns a valid index achieving the minimum distance, with ties broken by
the first (lowest-index) match. -/
theorem fccLoop_top_spec (t : Color) (c : Color) (cs : List Color) :
    fccLoop t (c :: cs) 0 none 0 < (c :: cs).length ∧
    (∀ j, j < (c :: cs).length →
      dist2 t ((c :: cs).getD (fccLoop t (c :: cs) 0 none 0) defaultColor)
        ≤ dist2 t ((c :: cs).getD j defaultColor)) ∧
    (∀ j, j < fccLoop t (c :: cs) 0 none 0 →
      dist2 t ((c :: cs).getD (fccLoop t (c :: cs) 0 none 0) defaultColor)
        < dist2 t ((c :: cs).getD j defaultColor)) := by
  rw [fccLoop_cons_start]
  rcases fccLoop_spec t cs 1 0 (dist2 t c) with ⟨heq, hall⟩ | ⟨k, hk, heq, hlt, hmin, hstrict⟩
  · rw [heq]
    refine ⟨by simp, ?_, ?_⟩
    · intro j hj
      cases j with
      | zero => simp
      | succ j => simpa using hall j (by simpa using hj)
    · intro j hj
      omega
  · rw [heq]
    have hgd : (c :: cs).getD (1 + k) defaultColor = cs.getD k defaultColor := by
      have : 1 + k = k + 1 := by omega
      rw [this]
      simp
    refine ⟨by simp only [List.length_cons]; omega, ?_, ?_⟩
    · intro j hj
      rw [hgd]
      cases j with
      | zero => simpa using hlt.le
      | succ j => simpa using hmin j (by simpa using hj)
    · intro j hj
      rw [hgd]
      cases j with
      | zero => simpa using hlt
      | succ j =>
        rw [List.getD_cons_succ]
        exact hstrict j (by omega)

/-- Specification of find_closest_color on a palette with at least one
stored colour: the returned index is valid and achieves the minimum
squared distance, first match winning ties. -/
theorem findClosestColor_spec (p : Palette) (r g b : Int) (hne : p.colors ≠ []) :
    findClosestColor p r g b < p.colors.length ∧
    (∀ j, j < p.colors.length →
      dist2 (r, g, b) (p.colors.getD (findClosestColor p r g b) defaultColor)
        ≤ dist2 (r, g, b) (p.colors.getD j defaultColor)) ∧
    (∀ j, j < findClosestColor p r g b →
      dist2 (r, g, b) (p.colors.getD (findClosestColor p r g b) defaultColor)
        < dist2 (r, g, b) (p.colors.getD j defaultColor)) := by
  obtain ⟨c, cs, hcs⟩ : ∃ c cs, p.colors = c :: cs := by
    cases hpc : p.colors with
    | nil => exact absurd hpc hne
    | cons c cs => exact ⟨c, cs, rfl⟩
  unfold findClosestColor
  rw [hcs]
  exact fccLoop_top_spec (r, g, b) c cs

/-- The first occurrence of a present element is a valid index. -/
theorem indexOfColor_lt_length (l : List Color) (t : Color) (h : t ∈ l) :
    indexOfColor l t < l.length := by
  induction l with
  | nil => exact absurd h (by simp)
  | cons c rest ih =>
    unfold indexOfColor
    by_cases hct : c = t
    · rw [if_pos hct]
      simp
    · rw [if_neg hct]
      have : t ∈ rest := by
        rcases List.mem_cons.1 h with h' | h'
        · exact absurd h'.symm hct
        · exact h'
      simpa using ih this

/-- Appending entries after a present element does not change the index
of its first occurrence. -/
theorem indexOfColor_append (l ext : List Color) (t : Color) (h : t ∈ l) :
    indexOfColor (l ++ ext) t = indexOfColor l t := by
  induction l with
  | nil => exact absurd h (by simp)
  | cons c rest ih =>
    simp only [List.cons_append]
    unfold indexOfColor
    by_cases hct : c = t
    · rw [if_pos hct, if_pos hct]
    · rw [if_neg hct, if_neg hct]
      have : t ∈ rest := by
        rcases List.mem_cons.1 h with h' | h'
        · exact absurd h'.symm hct
        · exact h'
      rw [ih this]

/-- A freshly appended element absent from the front part is indexed at
the old length. -/
theorem indexOfColor_append_self (l : List Color) (t : Color) (h : t ∉ l) :
    indexOfColor (l ++ [t]) t = l.length := by
  induction l with
  | nil => simp [indexOfColor]
  | cons c rest ih =>
    simp only [List.cons_append]
    unfold indexOfColor
    have hct : ¬c = t := fun e => h (List.mem_cons.2 (Or.inl e.symm))
    rw [if_neg hct]
    have : t ∉ rest := fun hm => h (List.mem_cons_of_mem c hm)
    rw [ih this]
    simp

theorem addColor_of_mem (p : Palette) (r g b : Int) (h : quantize r g b ∈ p.colors) :
    addColor p r g b = (indexOfColor p.colors (quantize r g b), p) := by
  simp only [addColor]
  rw [if_pos h]

theorem addColor_of_not_mem_small (p : Palette) (r g b : Int)
    (h1 : quantize r g b ∉ p.colors) (h2 : p.colors.length < 16) :
    addColor p r g b
      = (indexOfColor (p.colors ++ [quantize r g b]) (quantize r g b),
          ⟨p.name, p.colors ++ [quantize r g b]⟩) := by
  simp only [addColor]
  rw [if_neg h1, if_pos h2]

theorem addColor_of_not_mem_full (p : Palette) (r g b : Int)
    (h1 : quantize r g b ∉ p.colors) (h2 : ¬p.colors.length < 16) :
    addColor p r g b
      = (findClosestColor p (quantChan r) (quantChan g) (quantChan b), p) := by
  simp only [addColor]
  rw [if_neg h1, if_neg h2]
  rfl

/-- C1: on a full 16-entry palette, add_color of a colour whose quantized
triple is not stored leaves the stored colours unchanged and returns the
valid index of the stored entry at minimum Euclidean distance to the
quantized triple (compared through squared distances, which order
identically), ties broken by the first, lowest-index match. -/
theorem add_color_full_nearest (p : Palette) (r g b : Int)
    (hfull : p.colors.length = 16) (hnm : quantize r g b ∉ p.colors) :
    (addColor p r g b).2 = p ∧
    (addColor p r g b).1 < p.colors.length ∧
    (∀ j, j < p.colors.length →
      dist2 (quantize r g b) (p.colors.getD (addColor p r g b).1 defaultColor)
        ≤ dist2 (quantize r g b) (p.colors.getD j defaultColor)) ∧
    (∀ j, j < (addColor p r g b).1 →
      dist2 (quantize r g b) (p.colors.getD (addColor p r g b).1 defaultColor)
        < dist2 (quantize r g b) (p.colors.getD j defaultColor)) := by
  have hne : p.colors ≠ [] := by
    intro h
    rw [h] at hfull
    simp at hfull
  have heq : addColor p r g b
      = (findClosestColor p (quantChan r) (quantChan g) (quantChan b), p) :=
    addColor_of_not_mem_full p r g b hnm (by omega)
  have hspec := findClosestColor_spec p (quantChan r) (quantChan g) (quantChan b) hne
  rw [heq]
  unfold quantize
  exact ⟨rfl, hspec.1, hspec.2.1, hspec.2.2⟩

/-- Concrete full palette of 16 distinct quantized reds for the C1
witness. -/
def pal16 : Palette :=
  ⟨"full", [(0, 0, 0), (8, 0, 0), (16, 0, 0), (24, 0, 0), (32, 0, 0), (40, 0, 0),
    (48, 0, 0), (56, 0, 0), (64, 0, 0), (72, 0, 0), (80, 0, 0), (88, 0, 0),
    (96, 0, 0), (104, 0, 0), (112, 0, 0), (120, 0, 0)]⟩

/-- Witness for C1: inserting (200,0,0) into the full pal16 returns the
nearest stored colour and stores nothing. -/
theorem add_color_full_nearest_witness :
    (addColor pal16 200 0 0).2 = pal16 ∧
    (addColor pal16 200 0 0).1 < pal16.colors.length ∧
    (∀ j, j < pal16.colors.length →
      dist2 (quantize 200 0 0) (pal16.colors.getD (addColor pal16 200 0 0).1 defaultColor)
        ≤ dist2 (quantize 200 0 0) (pal16.colors.getD j defaultColor)) ∧
    (∀ j, j < (addColor pal16 200 0 0).1 →
      dist2 (quantize 200 0 0) (pal16.colors.getD (addColor pal16 200 0 0).1 defaultColor)
        < dist2 (quantize 200 0 0) (pal16.colors.getD j defaultColor)) :=
  add_color_full_nearest pal16 200 0 0 (by decide) (by decide)

/-- C10: every index returned by add_color is a valid index into the
stored colour list at the time of return, for any palette state and so in
particular along any call sequence, and stored indices stay valid later
because the list length never decreases; by contrast find_closest_color
called directly on the empty palette returns index 0 while no entry
exists, so the validity of the full-palette fallback rests on the list
being nonempty there. -/
theorem add_color_index_valid :
    (∀ (p : Palette) (r g b : Int),
      (addColor p r g b).1 < (addColor p r g b).2.colors.length) ∧
    (∀ (p : Palette) (r g b : Int),
      p.colors.length ≤ (addColor p r g b).2.colors.length) ∧
    (∀ r g b : Int, findClosestColor (emptyPalette "empty") r g b = 0) ∧
    (emptyPalette "empty").colors.length = 0 := by
  refine ⟨?_, ?_, fun r g b => rfl, rfl⟩
  · intro p r g b
    by_cases hmem : quantize r g b ∈ p.colors
    · rw [addColor_of_mem p r g b hmem]
      exact indexOfColor_lt_length p.colors _ hmem
    · by_cases hlen : p.colors.length < 16
      · rw [addColor_of_not_mem_small p r g b hmem hlen]
        exact indexOfColor_lt_length _ _ (by simp)
      · rw [addColor_of_not_mem_full p r g b hmem hlen]
        have hne : p.colors ≠ [] := by
          intro h
          rw [h] at hlen
          simp at hlen
        exact (findClosestColor_spec p _ _ _ hne).1
  · intro p r g b
    by_cases hmem : quantize r g b ∈ p.colors
    · rw [addColor_of_mem p r g b hmem]
    · by_cases hlen : p.colors.length < 16
      · rw [addColor_of_not_mem_small p r g b hmem hlen]
        simp
      · rw [addColor_of_not_mem_full p r g b hmem hlen]

/-- Case split on the effect of one add_color call on the stored list:
either it is untouched, or the quantized colour is appended to a
non-full list it was absent from. -/
theorem addColor_colors_cases (p : Palette) (r g b : Int) :
    (addColor p r g b).2.colors = p.colors ∨
    ((addColor p r g b).2.colors = p.colors ++ [quantize r g b] ∧
      quantize r g b ∉ p.colors ∧ p.colors.length < 16) := by
  by_cases hmem : quantize r g b ∈ p.colors
  · rw [addColor_of_mem p r g b hmem]
    exact Or.inl rfl
  · by_cases hlen : p.colors.length < 16
    · rw [addColor_of_not_mem_small p r g b hmem hlen]
      exact Or.inr ⟨rfl, hmem, hlen⟩
    · rw [addColor_of_not_mem_full p r g b hmem hlen]
      exact Or.inl rfl

/-- State invariant of RetroColorPalette: at most 16 stored colours, no
duplicate triples, and every stored channel a multiple of 8 (low 3 bits
cleared). -/
def PaletteInv (p : Palette) : Prop :=
  p.colors.length ≤ 16 ∧ p.colors.Nodup ∧
    ∀ c ∈ p.colors, 8 ∣ c.1 ∧ 8 ∣ c.2.1 ∧ 8 ∣ c.2.2

theorem addColor_inv (p : Palette) (r g b : Int) (h : PaletteInv p) :
    PaletteInv (addColor p r g b).2 := by
  rcases addColor_colors_cases p r g b with heq | ⟨heq, hnm, hlen⟩
  · unfold PaletteInv
    rw [heq]
    exact h
  · unfold PaletteInv
    rw [heq]
    refine ⟨?_, ?_, ?_⟩
    · simp only [List.length_append, List.length_singleton]
      omega
    · have := List.Nodup.concat hnm h.2.1
      rwa [List.concat_eq_append] at this
    · intro c hc
      rcases List.mem_append.1 hc with hc | hc
      · exact h.2.2 c hc
      · rw [List.mem_singleton] at hc
        subst hc
        exact ⟨dvd_mul_left 8 _, dvd_mul_left 8 _, dvd_mul_left 8 _⟩

theorem applyCalls_inv (p : Palette) (calls : List (Int × Int × Int))
    (h : PaletteInv p) : PaletteInv (applyCalls p calls) := by
  induction calls generalizing p with
  | nil => exact h
  | cons c cs ih => exact ih _ (addColor_inv p c.1 c.2.1 c.2.2 h)

/-- One add_color call never shrinks the stored list. -/
theorem addColor_length_mono (p : Palette) (r g b : Int) :
    p.colors.length ≤ (addColor p r g b).2.colors.length := by
  rcases addColor_colors_cases p r g b with heq | ⟨heq, -, -⟩
  · rw [heq]
  · rw [heq]
    simp

/-- Once 16 colours are stored, add_color never changes the stored list. -/
theorem addColor_frozen (p : Palette) (r g b : Int) (h : p.colors.length = 16) :
    (addColor p r g b).2.colors = p.colors := by
  rcases addColor_colors_cases p r g b with heq | ⟨-, -, hlen⟩
  · exact heq
  · omega

/-- C2: along every sequence of add_color calls from the empty palette
the stored list has at most 16 entries, contains no duplicate triples and
holds only quantized channels (all multiples of 8); moreover each further
call keeps the length non-decreasing, and once the length reaches 16 the
stored list is frozen. -/
theorem palette_capacity_invariant (calls : List (Int × Int × Int)) :
    ((applyCalls (emptyPalette "p") calls).colors.length ≤ 16 ∧
      (applyCalls (emptyPalette "p") calls).colors.Nodup ∧
      ∀ c ∈ (applyCalls (emptyPalette "p") calls).colors,
        8 ∣ c.1 ∧ 8 ∣ c.2.1 ∧ 8 ∣ c.2.2) ∧
    (∀ r g b : Int,
      (applyCalls (emptyPalette "p") calls).colors.length
        ≤ (addColor (applyCalls (emptyPalette "p") calls) r g b).2.colors.length) ∧
    (∀ r g b : Int, (applyCalls (emptyPalette "p") calls).colors.length = 16 →
      (addColor (applyCalls (emptyPalette "p") calls) r g b).2.colors
        = (applyCalls (emptyPalette "p") calls).colors) := by
  refine ⟨?_, ?_, ?_⟩
  · exact applyCalls_inv (emptyPalette "p") calls ⟨by simp [emptyPalette], by simp [emptyPalette], by simp [emptyPalette]⟩
  · intro r g b
    exact addColor_length_mono _ r g b
  · intro r g b h
    exact addColor_frozen _ r g b h

/-- Seventeen distinct already-quantized colours for the C2 witness. -/
def calls17 : List (Int × Int × Int) :=
  [(0, 0, 0), (8, 0, 0), (16, 0, 0), (24, 0, 0), (32, 0, 0), (40, 0, 0),
   (48, 0, 0), (56, 0, 0), (64, 0, 0), (72, 0, 0), (80, 0, 0), (88, 0, 0),
   (96, 0, 0), (104, 0, 0), (112, 0, 0), (120, 0, 0), (128, 0, 0)]

/-- Witness for C2: after seventeen distinct insertions exactly 16
colours are stored, the front entry is quantized, and a further call
leaves the stored list frozen. -/
theorem palette_capacity_invariant_witness :
    (applyCalls (emptyPalette "p") calls17).colors.length ≤ 16 ∧
    (8 ∣ ((applyCalls (emptyPalette "p") calls17).colors.getD 0 defaultColor).1) ∧
    (addColor (applyCalls (emptyPalette "p") calls17) 4 4 4).2.colors
      = (applyCalls (emptyPalette "p") calls17).colors := by
  have h := palette_capacity_invariant calls17
  refine ⟨h.1.1, ?_, h.2.2 4 4 4 (by decide)⟩
  exact (h.1.2.2 _ (by decide)).1

/-- One add_color call only ever appends to the stored list. -/
theorem addColor_extends (p : Palette) (r g b : Int) :
    ∃ ext, (addColor p r g b).2.colors = p.colors ++ ext := by
  rcases addColor_colors_cases p r g b with heq | ⟨heq, -, -⟩
  · exact ⟨[], by rw [heq, List.append_nil]⟩
  · exact ⟨[quantize r g b], heq⟩

/-- A sequence of add_color calls only ever appends to the stored list. -/
theorem applyCalls_extends (p : Palette) (cs : List (Int × Int × Int)) :
    ∃ ext, (applyCalls p cs).colors = p.colors ++ ext := by
  induction cs generalizing p with
  | nil => exact ⟨[], by rw [List.append_nil]; rfl⟩
  | cons c cs ih =>
    obtain ⟨e1, he1⟩ := addColor_extends p c.1 c.2.1 c.2.2
    obtain ⟨e2, he2⟩ := ih (addColor p c.1 c.2.1 c.2.2).2
    refine ⟨e1 ++ e2, ?_⟩
    show (applyCalls (addColor p c.1 c.2.1 c.2.2).2 cs).colors = _
    rw [he2, he1, List.append_assoc]

/-- When the quantized colour ends up stored, the returned index is the
index of its first occurrence in the resulting list. -/
theorem addColor_fst_indexOf (p : Palette) (r g b : Int)
    (h : quantize r g b ∈ (addColor p r g b).2.colors) :
    (addColor p r g b).1 = indexOfColor (addColor p r g b).2.colors (quantize r g b) := by
  by_cases hmem : quantize r g b ∈ p.colors
  · rw [addColor_of_mem p r g b hmem]
  · by_cases hlen : p.colors.length < 16
    · rw [addColor_of_not_mem_small p r g b hmem hlen]
    · rw [addColor_of_not_mem_full p r g b hmem hlen] at h
      exact absurd h hmem

/-- C3: if a first add_color call leaves the colour's quantized triple
stored, then after any further sequence of add_color calls a repeated
call with any colour quantizing to the same triple returns the index of
the first call and leaves the palette unchanged. -/
theorem add_color_idempotent (p : Palette) (r g b r' g' b' : Int)
    (cs : List (Int × Int × Int))
    (hq : quantize r' g' b' = quantize r g b)
    (hmem : quantize r g b ∈ (addColor p r g b).2.colors) :
    addColor (applyCalls (addColor p r g b).2 cs) r' g' b'
      = ((addColor p r g b).1, applyCalls (addColor p r g b).2 cs) := by
  obtain ⟨ext, hext⟩ := applyCalls_extends (addColor p r g b).2 cs
  have hmem2 : quantize r' g' b' ∈ (applyCalls (addColor p r g b).2 cs).colors := by
    rw [hq, hext]
    exact List.mem_append_left _ hmem
  rw [addColor_of_mem _ r' g' b' hmem2]
  have hidx : indexOfColor (applyCalls (addColor p r g b).2 cs).colors (quantize r' g' b')
      = (addColor p r g b).1 := by
    rw [hq, hext, indexOfColor_append _ _ _ hmem, ← addColor_fst_indexOf p r g b hmem]
  rw [hidx]

/-- Witness for C3: re-inserting a colour with the same quantized triple
(250,220,180 vs 255,220,177, both quantizing to (248,216,176)) after an
unrelated insertion returns the original index 0 and changes nothing. -/
theorem add_color_idempotent_witness :
    addColor (applyCalls (addColor (emptyPalette "w") 255 220 177).2 [(10, 10, 10)]) 250 220 180
      = ((addColor (emptyPalette "w") 255 220 177).1,
          applyCalls (addColor (emptyPalette "w") 255 220 177).2 [(10, 10, 10)]) :=
  add_color_idempotent (emptyPalette "w") 255 220 177 250 220 180 [(10, 10, 10)]
    (by decide) (by decide)

/-- PIL image for the exporter: a pixel grid with Nat coordinates, data
in row-major order data y x. -/
structure Img where
  width : Nat
  height : Nat
  data : Nat → Nat → Pixel

/-- Image.new RGBA sheet filled with transparent (0,0,0,0). -/
def blankImg (w h : Nat) : Img := ⟨w, h, fun _ _ => (0, 0, 0, 0)⟩

/-- Image.paste of a source image at box offset (ox, oy): the pasted
region takes the source pixels, everything else keeps the destination
pixels. -/
def pasteImg (dst src : Img) (ox oy : Nat) : Img :=
  { dst with data := fun yy xx =>
      if ox ≤ xx ∧ xx < ox + src.width ∧ oy ≤ yy ∧ yy < oy + src.height then
        src.data (yy - oy) (xx - ox)
      else dst.data yy xx }

/-- Paste loop of save_to_files: frame number i is pasted at
(i * width, 0), mirroring the enumerate loop. -/
def pasteFrames (w : Nat) : Img → Nat → List Img → Img
  | sheet, _, [] => sheet
  | sheet, i, f :: fs => pasteFrames w (pasteImg sheet f (i * w) 0) (i + 1) fs

/-- LegendarySprite: name, frame dimensions, ordered frames and its own
palette. -/
structure Sprite where
  width : Nat
  height : Nat
  name : String
  frames : List Img
  palette : Palette

/-- Sheet construction of save_to_files: a fresh transparent sheet of
width frame-width times frame-count, all frames pasted left to right. -/
def buildSheet (s : Sprite) : Img :=
  pasteFrames s.width (blankImg (s.width * s.frames.length) s.height) 0 s.frames

/-- Palette metadata record written to the json file by save_to_files. -/
structure PaletteData where
  name : String
  colors : List Color
  width : Nat
  height : Nat
  frames : Nat

/-- Metadata record of save_to_files. -/
def makePaletteData (s : Sprite) : PaletteData :=
  ⟨s.name, s.palette.colors, s.width, s.height, s.frames.length⟩

/-- LegendarySprite.save_to_files: produces the sheet and the metadata
when at least one frame exists, nothing otherwise. -/
def saveToFiles (s : Sprite) : Option (Img × PaletteData) :=
  if s.frames.isEmpty then none
  else some (buildSheet s, makePaletteData s)

theorem pasteFrames_width (w : Nat) (fs : List Img) :
    ∀ (sheet : Img) (i : Nat), (pasteFrames w sheet i fs).width = sheet.width := by
  induction fs with
  | nil =>
    intro sheet i
    rfl
  | cons f fs ih =>
    intro sheet i
    exact ih _ _

theorem pasteFrames_height (w : Nat) (fs : List Img) :
    ∀ (sheet : Img) (i : Nat), (pasteFrames w sheet i fs).height = sheet.height := by
  induction fs with
  | nil =>
    intro sheet i
    rfl
  | cons f fs ih =>
    intro sheet i
    exact ih _ _

/-- Pixels in columns before the current paste offset are never touched
by the remaining pastes. -/
theorem pasteFrames_lower (w : Nat) (fs : List Img) :
    ∀ (sheet : Img) (k : Nat) (xx v : Nat), xx < k * w →
      (pasteFrames w sheet k fs).data v xx = sheet.data v xx := by
  induction fs with
  | nil =>
    intro sheet k xx v _
    rfl
  | cons f fs ih =>
    intro sheet k xx v hxx
    have h1 : xx < (k + 1) * w := lt_of_lt_of_le hxx (Nat.mul_le_mul_right w (by omega))
    rw [show pasteFrames w sheet k (f :: fs)
        = pasteFrames w (pasteImg sheet f (k * w) 0) (k + 1) fs from rfl]
    rw [ih _ _ _ _ h1]
    show (if k * w ≤ xx ∧ xx < k * w + f.width ∧ 0 ≤ v ∧ v < 0 + f.height then
        f.data (v - 0) (xx - k * w) else sheet.data v xx) = sheet.data v xx
    rw [if_neg (fun h => absurd h.1 (by omega))]

/-- Full characterization of the paste loop on same-sized frames: frame
number j occupies columns (k+j)*w onward of sheet row v. -/
theorem pasteFrames_spec (w h : Nat) (fs : List Img) :
    ∀ (sheet : Img) (k : Nat), (∀ f ∈ fs, f.width = w ∧ f.height = h) →
      ∀ (j u v : Nat), j < fs.length → u < w → v < h →
        (pasteFrames w sheet k fs).data v ((k + j) * w + u)
          = (fs.getD j (blankImg 0 0)).data v u := by
  induction fs with
  | nil =>
    intro sheet k _ j u v hj _ _
    exact absurd hj (by simp)
  | cons f fs ih =>
    intro sheet k hdim j u v hj hu hv
    rw [show pasteFrames w sheet k (f :: fs)
        = pasteFrames w (pasteImg sheet f (k * w) 0) (k + 1) fs from rfl]
    cases j with
    | zero =>
      have hfw : f.width = w := (hdim f (List.mem_cons_self f fs)).1
      have hfh : f.height = h := (hdim f (List.mem_cons_self f fs)).2
      have hlow : (k + 0) * w + u < (k + 1) * w := by
        have e1 : (k + 0) * w = k * w := by ring
        have e2 : (k + 1) * w = k * w + w := by ring
        omega
      rw [pasteFrames_lower w fs _ (k + 1) _ v hlow]
      show (if k * w ≤ (k + 0) * w + u ∧ (k + 0) * w + u < k * w + f.width ∧
          0 ≤ v ∧ v < 0 + f.height then
          f.data (v - 0) ((k + 0) * w + u - k * w) else sheet.data v ((k + 0) * w + u))
        = ((f :: fs).getD 0 (blankImg 0 0)).data v u
      have e1 : (k + 0) * w = k * w := by ring
      rw [if_pos ⟨by omega, by rw [hfw]; omega, by omega, by rw [hfh]; omega⟩]
      have e3 : (k + 0) * w + u - k * w = u := by omega
      rw [e3]
      rfl
    | succ j =>
      have : (k + (j + 1)) * w = ((k + 1) + j) * w := by ring_nf
      rw [this, ih _ (k + 1) (fun f hf => hdim f (List.mem_cons_of_mem _ hf)) j u v
        (by simpa using hj) hu hv]
      rfl

/-- C8: for a sprite with a nonempty list of frames all of the sprite's
dimensions W x H, save_to_files produces the sheet together with the
metadata; the sheet is exactly W * N wide and H high, frame i sits at
horizontal offset i * W in insertion order, and the metadata carries the
sprite name, the ordered palette colours, the frame dimensions and the
frame count. -/
theorem save_to_files_sheet (s : Sprite) (hne : s.frames ≠ [])
    (hdim : ∀ f ∈ s.frames, f.width = s.width ∧ f.height = s.height) :
    saveToFiles s = some (buildSheet s, makePaletteData s) ∧
    (buildSheet s).width = s.width * s.frames.length ∧
    (buildSheet s).height = s.height ∧
    (∀ i u v : Nat, i < s.frames.length → u < s.width → v < s.height →
      (buildSheet s).data v (i * s.width + u)
        = (s.frames.getD i (blankImg 0 0)).data v u) ∧
    (makePaletteData s).name = s.name ∧
    (makePaletteData s).colors = s.palette.colors ∧
    (makePaletteData s).width = s.width ∧
    (makePaletteData s).height = s.height ∧
    (makePaletteData s).frames = s.frames.length := by
  refine ⟨?_, ?_, ?_, ?_, rfl, rfl, rfl, rfl, rfl⟩
  · unfold saveToFiles
    rw [if_neg (by simpa using hne)]
  · unfold buildSheet
    rw [pasteFrames_width]
    rfl
  · unfold buildSheet
    rw [pasteFrames_height]
    rfl
  · intro i u v hi hu hv
    unfold buildSheet
    have := pasteFrames_spec s.width s.height s.frames
      (blankImg (s.width * s.frames.length) s.height) 0 hdim i u v hi hu hv
    have e0 : (0 + i) * s.width = i * s.width := by ring
    rw [e0] at this
    exact this

/-- Concrete two-frame sprite for the C8 witness. -/
def wSprite : Sprite :=
  ⟨2, 2, "w", [⟨2, 2, fun _ _ => (1, 0, 0, 255)⟩, ⟨2, 2, fun _ _ => (2, 0, 0, 255)⟩],
    testPal⟩

/-- Witness for C8: the two-frame 2x2 sprite exports a 4x2 sheet whose
pixel (2,1) comes from the second frame, and the metadata records two
frames. -/
theorem save_to_files_sheet_witness :
    saveToFiles wSprite = some (buildSheet wSprite, makePaletteData wSprite) ∧
    (buildSheet wSprite).width = 4 ∧
    (buildSheet wSprite).height = 2 ∧
    (buildSheet wSprite).data 1 (1 * 2 + 0)
      = (wSprite.frames.getD 1 (blankImg 0 0)).data 1 0 ∧
    (makePaletteData wSprite).frames = 2 := by
  have h := save_to_files_sheet wSprite (by simp [wSprite]) (by decide)
  exact ⟨h.1, h.2.1, h.2.2.1, h.2.2.2.1 1 0 1 (by decide) (by decide) (by decide), h.2.2.2.2.2.2.2.2⟩

end Uho
